import Mathlib

/-!
Shallow embedding of the theme-resolution and tile-geometry code of harp.gl
(`@here/harp-mapview/lib/ThemeLoader.ts`: classes `ThemeLoader` and
`TileGeometryCreator`).  Pure data is modelled with inductive types, JS
objects with association lists, fallible code with `Except`, and JS numbers
with `Rat` (exact arithmetic in place of IEEE doubles).  External helpers
that live outside the provided sources (`isReference`, `isValueDefinition`,
`computeStyleCacheId`, `GeometryKindSet.hasOrIntersects`) are modelled from
the specification and marked as such in their doc comments.
-/

namespace HarpGL

/-- JS-object property lookup on an association list (first binding wins). -/
def alookup [DecidableEq κ] (l : List (κ × α)) (k : κ) : Option α :=
  match l with
  | [] => none
  | (k', v) :: rest => if k' = k then some v else alookup rest k

/-- JS object spread `... base` followed by `... over`: every key of `base`
keeps its position, its value overridden by `over` when `over` binds it;
keys bound only in `over` follow. -/
def spreadMerge [DecidableEq κ] (base over : List (κ × α)) : List (κ × α) :=
  match base with
  | [] => over
  | (k, v) :: rest =>
    (k, (alookup over k).getD v) :: spreadMerge rest (over.filter (fun q => q.1 != k))

theorem alookup_filter_ne [DecidableEq κ] (l : List (κ × α)) (k k' : κ) (h : k' ≠ k) :
    alookup (l.filter (fun q => q.1 != k)) k' = alookup l k' := by
  induction l with
  | nil => rfl
  | cons p rest ih =>
    cases p with
    | mk pk pv =>
      simp only [List.filter_cons]
      by_cases hk : pk = k
      · have hb : ((pk, pv).1 != k) = false := by simp [hk]
        rw [hb]
        simp only [Bool.false_eq_true, if_false]
        rw [ih]
        have hne : ¬ pk = k' := by rintro rfl; exact h hk
        simp [alookup, hne]
      · have hb : ((pk, pv).1 != k) = true := by simp [hk]
        rw [hb]
        simp only [if_true]
        simp only [alookup]
        split <;> simp_all

/-- Lookup in a JS spread merge: the override wins, the base is the fallback. -/
theorem alookup_spreadMerge [DecidableEq κ] (base over : List (κ × α)) (k : κ) :
    alookup (spreadMerge base over) k =
      ((alookup over k).orElse (fun _ => alookup base k)) := by
  induction base generalizing over with
  | nil =>
    simp only [spreadMerge, alookup]
    cases alookup over k <;> rfl
  | cons p rest ih =>
    cases p with
    | mk pk pv =>
      simp only [spreadMerge, alookup]
      by_cases hk : pk = k
      · subst hk
        simp only [if_pos rfl]
        cases h : alookup over pk <;> simp [h, Option.orElse]
      · simp only [if_neg hk]
        rw [ih, alookup_filter_ne _ _ _ (fun hh => hk hh.symm)]

theorem alookup_eq_none_iff [DecidableEq κ] (l : List (κ × α)) (k : κ) :
    alookup l k = none ↔ k ∉ l.map Prod.fst := by
  induction l with
  | nil => simp [alookup]
  | cons p rest ih =>
    cases p with
    | mk pk pv =>
      by_cases h : pk = k
      · subst h; simp [alookup]
      · simp only [alookup, if_neg h, List.map_cons, List.mem_cons, ih]
        have hk : ¬ k = pk := fun hh => h hh.symm
        tauto

theorem alookup_of_mem_nodup [DecidableEq κ] (l : List (κ × α)) (k : κ) (v : α)
    (hmem : (k, v) ∈ l) (hnd : (l.map Prod.fst).Nodup) : alookup l k = some v := by
  induction l with
  | nil => cases hmem
  | cons p rest ih =>
    cases p with
    | mk pk pv =>
      simp only [List.map_cons, List.nodup_cons] at hnd
      rcases List.mem_cons.mp hmem with heq | hm
      · cases heq; simp [alookup]
      · have hk : ¬ pk = k := by
          rintro rfl
          exact hnd.1 (List.mem_map_of_mem Prod.fst hm)
        simp only [alookup, if_neg hk]
        exact ih hm hnd.2

theorem mem_keys_of_mem_keys_filterMap [DecidableEq κ] (f : κ × α → Option (κ × β))
    (hf : ∀ p q, f p = some q → q.1 = p.1)
    (l : List (κ × α)) (k : κ)
    (h : k ∈ (l.filterMap f).map Prod.fst) : k ∈ l.map Prod.fst := by
  simp only [List.mem_map, List.mem_filterMap] at h
  obtain ⟨q, ⟨p, hp, hfp⟩, hqk⟩ := h
  exact List.mem_map.mpr ⟨p, hp, by rw [← hf p q hfp, hqk]⟩

/-- Lookup through a key-preserving `filterMap`, for unique keys: the result
is the image of the original binding under `f`. -/
theorem alookup_filterMap [DecidableEq κ] (f : κ × α → Option (κ × β))
    (hf : ∀ p q, f p = some q → q.1 = p.1)
    (l : List (κ × α)) (k : κ) (hnd : (l.map Prod.fst).Nodup) :
    alookup (l.filterMap f) k
      = (alookup l k).bind (fun v => (f (k, v)).map Prod.snd) := by
  induction l with
  | nil => rfl
  | cons p rest ih =>
    cases p with
    | mk pk pv =>
      simp only [List.map_cons, List.nodup_cons] at hnd
      simp only [List.filterMap_cons]
      cases hq : f (pk, pv) with
      | none =>
        by_cases h : pk = k
        · subst h
          have hnone : alookup (rest.filterMap f) pk = none := by
            rw [alookup_eq_none_iff]
            intro hin
            exact hnd.1 (mem_keys_of_mem_keys_filterMap f hf rest pk hin)
          simp [alookup, hnone, hq]
        · simp only [alookup, if_neg h]
          exact ih hnd.2
      | some q =>
        have hqk : q.1 = pk := hf _ _ hq
        by_cases h : pk = k
        · subst h
          cases q with
          | mk q1 q2 =>
            simp only at hqk
            simp [alookup, hqk, hq]
        · have hq1 : ¬ q.1 = k := by rw [hqk]; exact h
          simp only [alookup, if_neg h, if_neg hq1]
          exact ih hnd.2

/-! ## Theme data model

Mirrors the `Theme` JSON shape used by `ThemeLoader` (ThemeLoader.ts):
`extends` (an embedded base theme; the URL variant is out of scope since it
requires network fetch), `definitions`, `styles` (style sets by name) and
the remaining scalar fields.  JSON scalar/object values that the loader
never inspects are abstracted as strings. -/

/-- A style attribute value: either a concrete value or a `$ref` object.
`isReference` (external, modelled from the spec) is true exactly on `ref`. -/
inductive AttrValue where
  | lit (v : String)
  | ref (name : String)
deriving DecidableEq

/-- The body of a style: the optional `attr` map plus the remaining direct
fields (`description`, `when`, `technique`, ...). -/
structure StyleBody where
  attr : Option (List (String × AttrValue))
  fields : List (String × String)
deriving DecidableEq

/-- One entry of a style set: either a plain style, or a style-level
reference object (a JS object carrying `$ref` plus override fields). -/
inductive StyleEntry where
  | style (s : StyleBody)
  | ref (name : String) (overrides : StyleBody)
deriving DecidableEq

/-- A named definition: `isValueDefinition` (external, modelled from the
spec: a definition is either a value definition carrying a concrete value,
or a style definition) is true exactly on `value`. -/
inductive Definition where
  | value (v : String)
  | styleDef (s : StyleBody)
deriving DecidableEq

/-- A theme document.  `ext` is the `extends` field (`none` when absent). -/
inductive Theme where
  | mk (ext : Option Theme)
       (definitions : Option (List (String × Definition)))
       (styles : Option (List (String × List StyleEntry)))
       (other : List (String × String))

def Theme.ext : Theme → Option Theme
  | .mk e _ _ _ => e

def Theme.definitions : Theme → Option (List (String × Definition))
  | .mk _ d _ _ => d

def Theme.styles : Theme → Option (List (String × List StyleEntry))
  | .mk _ _ s _ => s

def Theme.other : Theme → List (String × String)
  | .mk _ _ _ o => o

/-- Length of the embedded `extends` chain (termination measure). -/
def Theme.extDepth : Theme → Nat
  | .mk none _ _ _ => 0
  | .mk (some b) _ _ _ => b.extDepth + 1

@[simp] theorem Theme.extDepth_mk_none (d s o) :
    Theme.extDepth (.mk none d s o) = 0 := rfl

@[simp] theorem Theme.extDepth_mk_some (b d s o) :
    Theme.extDepth (.mk (some b) d s o) = b.extDepth + 1 := rfl

/-- The constant `DEFAULT_MAX_THEME_INTHERITANCE_DEPTH` (ThemeLoader.ts line 13). -/
def DEFAULT_MAX_THEME_INTHERITANCE_DEPTH : Nat := 4

namespace ThemeLoader

/-- Model of `ThemeLoader.resolveBaseTheme` (ThemeLoader.ts lines 246-269), for
embedded base themes.  The source's `ThemeLoader.load(baseTheme, false)`
reduces, for an embedded theme without a URL, to `resolveUrls` (identity:
no URL to resolve against) followed by `resolveBaseTheme` with the default
depth budget — the model inlines that composition.  Note the source deletes
`theme.extends` before merging, and spreads possibly-undefined
`definitions`/`styles` into fresh objects, so the merged theme always
carries (possibly empty) `definitions` and `styles` and no `extends`. -/
def resolveBaseTheme : Theme → Nat → Except String Theme
  | .mk none d s o, _ => .ok (.mk none d s o)
  | .mk (some base) d s o, depth =>
    if depth = 0 then
      .error "maxInheritanceDepth reached when attempting to load base theme"
    else
      match resolveBaseTheme base DEFAULT_MAX_THEME_INTHERITANCE_DEPTH with
      | .error e => .error e
      | .ok ab =>
        let definitions := spreadMerge (ab.definitions.getD []) (d.getD [])
        let styles := spreadMerge (ab.styles.getD []) (s.getD [])
        resolveBaseTheme
          (.mk none (some definitions) (some styles) (spreadMerge ab.other o))
          (depth - 1)
termination_by t _ => t.extDepth
decreasing_by
  · simp [Theme.extDepth]
  · simp [Theme.extDepth]

/-- Merge realizing `{ ...styleDef, ...style }` (ThemeLoader.ts line 204):
the override's direct fields win; `attr` is a single JS property, so an
override `attr` map replaces the base map wholesale. -/
def mergeStyleBody (base over : StyleBody) : StyleBody :=
  { attr := match over.attr with
      | some a => some a
      | none => base.attr,
    fields := spreadMerge base.fields over.fields }

/-- One iteration of the `attr` loop of `ThemeLoader.expandReferences`
(ThemeLoader.ts lines 214-233): a literal attribute is kept; an attribute
that is a `$ref` is replaced by the referenced value definition's value,
and deleted (`none`) when the reference is missing or names a style
definition. -/
def expandAttr (defs : List (String × Definition)) (p : String × AttrValue) :
    Option (String × AttrValue) :=
  match p.2 with
  | .lit v => some (p.1, AttrValue.lit v)
  | .ref n =>
    match alookup defs n with
    | some (.value v) => some (p.1, AttrValue.lit v)
    | _ => none

/-- The `attr` loop of `ThemeLoader.expandReferences` (ThemeLoader.ts lines
212-233) over a style body. -/
def expandAttrs (defs : List (String × Definition)) (s : StyleBody) : StyleBody :=
  match s.attr with
  | none => s
  | some attrs => { s with attr := some (attrs.filterMap (expandAttr defs)) }

/-- The per-style body of `ThemeLoader.expandReferences` (ThemeLoader.ts
lines 188-234).  A style-level `$ref` to a value definition returns early
(the entry is left untouched, its `attr` unprocessed); a `$ref` to a style
definition is instantiated by deleting `$ref` and spreading the (deep
cloned) definition under the local overrides, after which the merged
style's `attr` map is expanded.  A style-level `$ref` to a missing
definition is modelled from the spec as left untouched (the source defers
to the external `isValueDefinition` on `undefined`). -/
def expandStyleEntry (defs : List (String × Definition)) :
    StyleEntry → StyleEntry
  | .style s => .style (expandAttrs defs s)
  | .ref n overrides =>
    match alookup defs n with
    | some (.styleDef s) => .style (expandAttrs defs (mergeStyleBody s overrides))
    | _ => .ref n overrides

/-- The style-set walk of `ThemeLoader.expandReferences` (ThemeLoader.ts
lines 167-236): a no-op when the resolved theme lacks `styles` or lacks
`definitions`; otherwise every entry of every style set is expanded. -/
def expandCore (t : Theme) : Theme :=
  match t with
  | .mk e defsOpt stylesOpt o =>
    match stylesOpt, defsOpt with
    | some styles, some defs =>
      .mk e defsOpt
        (some (styles.map (fun p => (p.1, p.2.map (expandStyleEntry defs))))) o
    | _, _ => t

/-- Model of `ThemeLoader.expandReferences` (ThemeLoader.ts lines 164-237): resolve
the base theme, then expand references in the style sets. -/
def expandReferences (t : Theme) : Except String Theme :=
  match resolveBaseTheme t DEFAULT_MAX_THEME_INTHERITANCE_DEPTH with
  | .error e => .error e
  | .ok r => .ok (expandCore r)

/-- Model of `ThemeLoader.load` (ThemeLoader.ts lines 28-54) for an in-memory theme:
`resolveUrls` (identity without a URL), `resolveBaseTheme`, then
`expandReferences` when `expand` is set. -/
def load (t : Theme) (expand : Bool) : Except String Theme :=
  match resolveBaseTheme t DEFAULT_MAX_THEME_INTHERITANCE_DEPTH with
  | .error e => .error e
  | .ok w => if expand then expandReferences w else .ok w

theorem resolveBaseTheme_mk_none (d s o depth) :
    resolveBaseTheme (.mk none d s o) depth = .ok (.mk none d s o) := by
  simp [resolveBaseTheme]

/-- One resolution step for a theme extending `base`, given the value of the
nested base load: the tail-recursive call receives a theme without
`extends` and returns it unchanged. -/
theorem resolveBaseTheme_step (base : Theme) (d s o) (depth : Nat)
    (hd : depth ≠ 0) (ab : Theme)
    (hab : resolveBaseTheme base DEFAULT_MAX_THEME_INTHERITANCE_DEPTH = .ok ab) :
    resolveBaseTheme (.mk (some base) d s o) depth =
      .ok (.mk none
        (some (spreadMerge (ab.definitions.getD []) (d.getD [])))
        (some (spreadMerge (ab.styles.getD []) (s.getD [])))
        (spreadMerge ab.other o)) := by
  rw [resolveBaseTheme]
  simp [hd, hab, resolveBaseTheme_mk_none]

/-- A successfully resolved theme never retains an `extends` clause. -/
theorem resolveBaseTheme_ext_none (t : Theme) (depth : Nat) (r : Theme)
    (h : resolveBaseTheme t depth = .ok r) : r.ext = none := by
  cases t with
  | mk e d s o =>
    cases e with
    | none =>
      rw [resolveBaseTheme_mk_none] at h
      cases h
      rfl
    | some base =>
      rw [resolveBaseTheme] at h
      by_cases hd : depth = 0
      · simp [hd] at h
      · simp only [hd, if_false] at h
        cases hab : resolveBaseTheme base DEFAULT_MAX_THEME_INTHERITANCE_DEPTH with
        | error e => rw [hab] at h; cases h
        | ok ab =>
          rw [hab] at h
          simp only [resolveBaseTheme_mk_none] at h
          cases h
          rfl

/-- When a theme actually has an `extends` clause, the merge spreads
possibly-undefined `definitions` and `styles` into fresh objects, so the
resolved theme always carries both maps; consequently a resolved theme
lacking either map can only be the input itself, returned unchanged by the
`extends === undefined` early exit. -/
theorem resolveBaseTheme_eq_self_of_none (t : Theme) (depth : Nat) (w : Theme)
    (h : resolveBaseTheme t depth = .ok w)
    (hnone : w.definitions = none ∨ w.styles = none) : w = t := by
  cases t with
  | mk e d s o =>
    cases e with
    | none =>
      rw [resolveBaseTheme_mk_none] at h
      cases h
      rfl
    | some base =>
      rw [resolveBaseTheme] at h
      by_cases hd : depth = 0
      · simp [hd] at h
      · simp only [hd, if_false] at h
        cases hab : resolveBaseTheme base DEFAULT_MAX_THEME_INTHERITANCE_DEPTH with
        | error e => rw [hab] at h; cases h
        | ok ab =>
          rw [hab] at h
          simp only [resolveBaseTheme_mk_none] at h
          cases h
          rcases hnone with h1 | h1 <;>
            simp [Theme.definitions, Theme.styles] at h1

/-- The depth guard of `resolveBaseTheme` is unreachable for any positive
budget: the nested `load` re-enters `resolveBaseTheme` with a fresh default
budget, and the tail-recursive call always receives a theme whose `extends`
was already consumed, so resolution of a chain of any length succeeds. -/
theorem resolveBaseTheme_isOk_aux :
    ∀ (n : Nat) (t : Theme), t.extDepth ≤ n → ∀ depth, 1 ≤ depth →
      ∃ r, resolveBaseTheme t depth = .ok r := by
  intro n
  induction n with
  | zero =>
    intro t hle depth _
    cases t with
    | mk e d s o =>
      cases e with
      | none => exact ⟨_, resolveBaseTheme_mk_none d s o depth⟩
      | some base => simp [Theme.extDepth] at hle
  | succ n ih =>
    intro t hle depth hdep
    cases t with
    | mk e d s o =>
      cases e with
      | none => exact ⟨_, resolveBaseTheme_mk_none d s o depth⟩
      | some base =>
        have hb : base.extDepth ≤ n := by
          simp only [Theme.extDepth_mk_some] at hle
          omega
        obtain ⟨ab, hab⟩ :=
          ih base hb DEFAULT_MAX_THEME_INTHERITANCE_DEPTH (by decide)
        exact ⟨_, resolveBaseTheme_step base d s o depth (by omega) ab hab⟩

theorem resolveBaseTheme_isOk (t : Theme) (depth : Nat) (hdep : 1 ≤ depth) :
    ∃ r, resolveBaseTheme t depth = .ok r :=
  resolveBaseTheme_isOk_aux t.extDepth t (Nat.le_refl _) depth hdep

end ThemeLoader

/-! ## Predicates for unresolved references -/

/-- Test matching `isReference` on attribute values (modelled from the spec: an attribute
value is a reference exactly when it is a `$ref` object). -/
def AttrValue.isRefB : AttrValue → Bool
  | .ref _ => true
  | .lit _ => false

/-- Whether some attribute value of the style body is still a `$ref`. -/
def StyleBody.attrHasRef (s : StyleBody) : Bool :=
  (s.attr.getD []).any (fun p => p.2.isRefB)

/-- Whether the style entry still holds any `$ref`: either the entry itself
is a style-level reference, or some of its attribute values is one. -/
def StyleEntry.hasUnresolvedRef : StyleEntry → Bool
  | .ref _ _ => true
  | .style s => s.attrHasRef

/-- Whether the theme still holds an `extends` clause or any `$ref` inside
its style sets (as a whole style entry or as an attribute value). -/
def Theme.hasUnresolvedRefs (t : Theme) : Bool :=
  t.ext.isSome ||
    (t.styles.getD []).any (fun p => p.2.any (fun e => e.hasUnresolvedRef))

namespace ThemeLoader

theorem noRef_expandAttrList (defs : List (String × Definition))
    (attrs : List (String × AttrValue)) :
    (attrs.filterMap (expandAttr defs)).any (fun p => p.2.isRefB) = false := by
  induction attrs with
  | nil => rfl
  | cons p rest ih =>
    cases hv : p.2 with
    | lit v =>
      simpa [List.filterMap_cons, expandAttr, hv, AttrValue.isRefB] using ih
    | ref n =>
      simp only [List.filterMap_cons, expandAttr, hv]
      cases hl : alookup defs n with
      | none => simpa using ih
      | some def' =>
        cases def' with
        | value v => simpa [AttrValue.isRefB] using ih
        | styleDef sb => simpa using ih

/-- Attribute expansion leaves no `$ref` among attribute values: every
reference is replaced by a concrete value or deleted. -/
theorem attrHasRef_expandAttrs (defs : List (String × Definition))
    (s : StyleBody) : (expandAttrs defs s).attrHasRef = false := by
  cases ha : s.attr with
  | none => simp [expandAttrs, ha, StyleBody.attrHasRef]
  | some attrs =>
    simp only [expandAttrs, ha, StyleBody.attrHasRef, Option.getD_some]
    exact noRef_expandAttrList defs attrs

/-- An expanded style entry is either a plain style free of attribute
references, or a style-level `$ref` whose target is missing or is a value
definition (the silently skipped configuration error). -/
def entryExpandedB (defs : List (String × Definition)) : StyleEntry → Bool
  | .style s => !s.attrHasRef
  | .ref n _ =>
    match alookup defs n with
    | some (.styleDef _) => false
    | _ => true

theorem entryExpandedB_expandStyleEntry (defs : List (String × Definition))
    (e : StyleEntry) : entryExpandedB defs (expandStyleEntry defs e) = true := by
  cases e with
  | style s =>
    simp [expandStyleEntry, entryExpandedB, attrHasRef_expandAttrs]
  | ref n overrides =>
    simp only [expandStyleEntry]
    cases hl : alookup defs n with
    | none => simp [entryExpandedB, hl]
    | some def' =>
      cases def' with
      | value v => simp [entryExpandedB, hl]
      | styleDef sb => simp [entryExpandedB, attrHasRef_expandAttrs]

theorem expandCore_ext (t : Theme) : (expandCore t).ext = t.ext := by
  cases t with
  | mk e dOpt sOpt o =>
    cases sOpt <;> cases dOpt <;> simp [expandCore, Theme.ext]

end ThemeLoader

/-! ## Fixture themes -/

/-- A theme whose single style entry is a `$ref` to a value definition:
`expandReferences` skips such an entry, leaving the `$ref` in place. -/
def c1CounterTheme : Theme :=
  .mk none (some [("roadColor", .value "#f00")])
    (some [("tilezen", [.ref "roadColor" ⟨none, []⟩])]) []

/-- The theme of the repository's `ThemeLoaderTest` "supports $ref in
technique attr values": one style whose `lineColor` attribute references
the `roadColor` value definition. -/
def c1WitnessTheme : Theme :=
  .mk none (some [("roadColor", .value "#f00")])
    (some [("tilezen",
      [.style ⟨some [("lineColor", .ref "roadColor")],
               [("description", "roads"), ("technique", "solid-line")]⟩])]) []

/-- An embedded inheritance chain of five themes, each extending the
previous one. -/
def c4Chain1 : Theme := .mk none (some [("d1", .value "v1")]) none []

def c4Chain2 : Theme := .mk (some c4Chain1) (some [("d2", .value "v2")]) none []

def c4Chain3 : Theme := .mk (some c4Chain2) (some [("d3", .value "v3")]) none []

def c4Chain4 : Theme := .mk (some c4Chain3) (some [("d4", .value "v4")]) none []

def c4Chain5 : Theme := .mk (some c4Chain4) (some [("d5", .value "v5")]) none []

/-! ## Claim C1 -/

/-- C1, as stated, is false: `ThemeLoader.load` with `expand = true` can
return a theme in which a whole style entry is still an unresolved `$ref`.
On `c1CounterTheme` the style entry references a value definition, so
`expandReferences` skips it (ThemeLoader.ts lines 196-199) and the `$ref`
survives in the returned theme. -/
theorem C1_counterexample :
    ∃ r, ThemeLoader.load c1CounterTheme true = .ok r ∧
      r.hasUnresolvedRefs = true := by
  have h1 : ThemeLoader.resolveBaseTheme c1CounterTheme
      DEFAULT_MAX_THEME_INTHERITANCE_DEPTH = .ok c1CounterTheme :=
    ThemeLoader.resolveBaseTheme_mk_none _ _ _ _
  refine ⟨ThemeLoader.expandCore c1CounterTheme, ?_, ?_⟩
  · simp only [ThemeLoader.load, ThemeLoader.expandReferences, h1, if_true]
  · decide

/-- C1 (amended): after `ThemeLoader.load` with `expand = true`, the
returned theme has no `extends` clause.  When the resolved theme carries
both a `definitions` map and style sets, every style entry is either a
plain style containing no `$ref` among its attribute values, or a
style-level `$ref` whose target is missing or is a value definition — the
silently skipped configuration error that survives expansion.  When the
resolved theme lacks `definitions` or lacks `styles` — which after
resolution is possible only for a theme without an `extends` clause, since
the inheritance merge materializes both maps — `expandReferences` returns
early (ThemeLoader.ts lines 167-173) and the theme is returned completely
unchanged, so `$ref`s of every kind, attribute-level ones included,
survive in it. -/
theorem C1_load_expands_all_resolvable_refs (t r : Theme)
    (h : ThemeLoader.load t true = .ok r) :
    r.ext = none ∧
    (∀ defs sss, r.definitions = some defs → r.styles = some sss →
      ∀ p ∈ sss, ∀ e ∈ p.2, ThemeLoader.entryExpandedB defs e = true) ∧
    ((r.definitions = none ∨ r.styles = none) → r = t) := by
  simp only [ThemeLoader.load] at h
  cases hw : ThemeLoader.resolveBaseTheme t DEFAULT_MAX_THEME_INTHERITANCE_DEPTH with
  | error e => rw [hw] at h; cases h
  | ok w =>
    rw [hw] at h
    simp only [if_true] at h
    have hext := ThemeLoader.resolveBaseTheme_ext_none t _ w hw
    cases w with
    | mk e wd ws wo =>
      have he : e = none := hext
      subst he
      simp only [ThemeLoader.expandReferences,
        ThemeLoader.resolveBaseTheme_mk_none] at h
      injection h with h
      subst h
      refine ⟨?_, ?_, ?_⟩
      · rw [ThemeLoader.expandCore_ext]; rfl
      · intro defs sss hdefs hsss p hp e hep
        cases ws with
        | none =>
          cases wd <;> simp [ThemeLoader.expandCore, Theme.styles] at hsss
        | some styles =>
          cases wd with
          | none => simp [ThemeLoader.expandCore, Theme.definitions] at hdefs
          | some defs0 =>
            simp only [ThemeLoader.expandCore, Theme.definitions,
              Theme.styles, Option.some.injEq] at hdefs hsss
            subst hdefs
            subst hsss
            obtain ⟨q, hq, rfl⟩ := List.mem_map.mp hp
            obtain ⟨e', he', rfl⟩ := List.mem_map.mp hep
            exact ThemeLoader.entryExpandedB_expandStyleEntry _ e'
      · intro hnone
        cases ws with
        | none =>
          have hec : ThemeLoader.expandCore (Theme.mk none wd none wo)
              = Theme.mk none wd none wo := by cases wd <;> rfl
          rw [hec]
          exact ThemeLoader.resolveBaseTheme_eq_self_of_none t _ _ hw
            (Or.inr rfl)
        | some styles =>
          cases wd with
          | none =>
            have hec : ThemeLoader.expandCore
                (Theme.mk none none (some styles) wo)
                = Theme.mk none none (some styles) wo := rfl
            rw [hec]
            exact ThemeLoader.resolveBaseTheme_eq_self_of_none t _ _ hw
              (Or.inl rfl)
          | some defs0 =>
            exfalso
            rcases hnone with h1 | h1
            · simp [ThemeLoader.expandCore, Theme.definitions] at h1
            · simp [ThemeLoader.expandCore, Theme.styles] at h1

/-- A theme with style sets but no `definitions` map: `expandReferences`
returns it unchanged, attribute-level `$ref`s included. -/
def c1NoDefsTheme : Theme :=
  .mk none none
    (some [("tilezen",
      [.style ⟨some [("lineColor", .ref "roadColor")], []⟩])]) []

/-- Witness for C1: the test-suite theme loads and comes back without
`extends`; a theme with styles but no `definitions` map passes through
`load` completely unchanged, its attribute-level `$ref` surviving. -/
theorem C1_witness :
    (∃ r, ThemeLoader.load c1WitnessTheme true = .ok r ∧ r.ext = none) ∧
    (∃ r, ThemeLoader.load c1NoDefsTheme true = .ok r ∧ r = c1NoDefsTheme ∧
      r.hasUnresolvedRefs = true) := by
  constructor
  · have h1 : ThemeLoader.resolveBaseTheme c1WitnessTheme
        DEFAULT_MAX_THEME_INTHERITANCE_DEPTH = .ok c1WitnessTheme :=
      ThemeLoader.resolveBaseTheme_mk_none _ _ _ _
    have hload : ThemeLoader.load c1WitnessTheme true
        = .ok (ThemeLoader.expandCore c1WitnessTheme) := by
      simp only [ThemeLoader.load, ThemeLoader.expandReferences, h1, if_true]
    exact ⟨_, hload,
      (C1_load_expands_all_resolvable_refs c1WitnessTheme _ hload).1⟩
  · have h1 : ThemeLoader.resolveBaseTheme c1NoDefsTheme
        DEFAULT_MAX_THEME_INTHERITANCE_DEPTH = .ok c1NoDefsTheme :=
      ThemeLoader.resolveBaseTheme_mk_none _ _ _ _
    have hload : ThemeLoader.load c1NoDefsTheme true
        = .ok (ThemeLoader.expandCore c1NoDefsTheme) := by
      simp only [ThemeLoader.load, ThemeLoader.expandReferences, h1, if_true]
    have heq : ThemeLoader.expandCore c1NoDefsTheme = c1NoDefsTheme :=
      (C1_load_expands_all_resolvable_refs c1NoDefsTheme _ hload).2.2
        (Or.inl rfl)
    exact ⟨_, hload, heq, by rw [heq]; decide⟩

/-! ## Claim C4 -/

/-- C4: the depth-exceeded error never surfaces.  A chain of five embedded
themes, each extending the previous one, resolves successfully with the
default depth budget of 4 — and indeed carries all five definition keys —
because the nested `ThemeLoader.load` of each base theme re-enters
`resolveBaseTheme` with a fresh default budget and the tail call's theme
has its `extends` already consumed.  The claim (and the source's own doc
comment calling the bound a security measure) says this input must throw. -/
theorem C4_chain_of_five_resolves :
    ∃ r, ThemeLoader.resolveBaseTheme c4Chain5
        DEFAULT_MAX_THEME_INTHERITANCE_DEPTH = .ok r ∧
      alookup (r.definitions.getD []) "d1" = some (.value "v1") ∧
      alookup (r.definitions.getD []) "d5" = some (.value "v5") := by
  have h1 : ThemeLoader.resolveBaseTheme c4Chain1
      DEFAULT_MAX_THEME_INTHERITANCE_DEPTH = .ok c4Chain1 :=
    ThemeLoader.resolveBaseTheme_mk_none _ _ _ _
  have h2 := ThemeLoader.resolveBaseTheme_step c4Chain1
    (some [("d2", .value "v2")]) none []
    DEFAULT_MAX_THEME_INTHERITANCE_DEPTH (by decide) _ h1
  have h3 := ThemeLoader.resolveBaseTheme_step c4Chain2
    (some [("d3", .value "v3")]) none []
    DEFAULT_MAX_THEME_INTHERITANCE_DEPTH (by decide) _ h2
  have h4 := ThemeLoader.resolveBaseTheme_step c4Chain3
    (some [("d4", .value "v4")]) none []
    DEFAULT_MAX_THEME_INTHERITANCE_DEPTH (by decide) _ h3
  have h5 := ThemeLoader.resolveBaseTheme_step c4Chain4
    (some [("d5", .value "v5")]) none []
    DEFAULT_MAX_THEME_INTHERITANCE_DEPTH (by decide) _ h4
  exact ⟨_, h5, by decide, by decide⟩

/-! ## Claim C9 -/

/-- C9: the inheritance merge of `resolveBaseTheme` is override-biased.
For a child extending an extends-free base, every `definitions` (and
`styles`) key bound by the child keeps the child's value in the result,
and every key the child does not bind keeps the base's value. -/
theorem C9_merge_override_biased (bd : Option (List (String × Definition)))
    (bs : Option (List (String × List StyleEntry))) (bo : List (String × String))
    (d : Option (List (String × Definition)))
    (s : Option (List (String × List StyleEntry))) (o : List (String × String)) :
    ∃ m, ThemeLoader.resolveBaseTheme
        (.mk (some (.mk none bd bs bo)) d s o)
        DEFAULT_MAX_THEME_INTHERITANCE_DEPTH = .ok m ∧
      (∀ k v, alookup (d.getD []) k = some v →
        alookup (m.definitions.getD []) k = some v) ∧
      (∀ k, alookup (d.getD []) k = none →
        alookup (m.definitions.getD []) k = alookup (bd.getD []) k) ∧
      (∀ k v, alookup (s.getD []) k = some v →
        alookup (m.styles.getD []) k = some v) ∧
      (∀ k, alookup (s.getD []) k = none →
        alookup (m.styles.getD []) k = alookup (bs.getD []) k) := by
  have hstep := ThemeLoader.resolveBaseTheme_step (.mk none bd bs bo) d s o
    DEFAULT_MAX_THEME_INTHERITANCE_DEPTH (by decide) _
    (ThemeLoader.resolveBaseTheme_mk_none bd bs bo _)
  refine ⟨_, hstep, ?_, ?_, ?_, ?_⟩
  · intro k v hk
    simp [Theme.definitions, alookup_spreadMerge, hk, Option.orElse]
  · intro k hk
    simp [Theme.definitions, alookup_spreadMerge, hk, Option.orElse]
  · intro k v hk
    simp [Theme.styles, alookup_spreadMerge, hk, Option.orElse]
  · intro k hk
    simp [Theme.styles, alookup_spreadMerge, hk, Option.orElse]

/-- Witness for C9: the spec's `roadColor` example.  The child redefinition
wins and the untouched base definition survives. -/
theorem C9_witness :
    ∃ m, ThemeLoader.resolveBaseTheme
        (.mk (some (.mk none
            (some [("roadColor", .value "#f00"), ("primaryWidth", .value "650")])
            none []))
          (some [("roadColor", .value "#fff")]) none [])
        DEFAULT_MAX_THEME_INTHERITANCE_DEPTH = .ok m ∧
      alookup (m.definitions.getD []) "roadColor" = some (.value "#fff") ∧
      alookup (m.definitions.getD []) "primaryWidth" = some (.value "650") := by
  obtain ⟨m, hm, hov, hkeep, _, _⟩ := C9_merge_override_biased
    (some [("roadColor", .value "#f00"), ("primaryWidth", .value "650")])
    none [] (some [("roadColor", .value "#fff")]) none []
  refine ⟨m, hm, hov "roadColor" (.value "#fff") (by decide), ?_⟩
  rw [hkeep "primaryWidth" (by decide)]
  decide

/-! ## Claim C8 -/

/-- C8: inside a processed style's `attr` map, a `$ref` to a missing
definition or to a style definition is deleted (the key is absent, no
placeholder, no failure), while a `$ref` to a value definition is replaced
by the definition's concrete value. -/
theorem C8_attr_ref_resolution (defs : List (String × Definition))
    (sf : List (String × String)) (attrs : List (String × AttrValue))
    (k n : String)
    (hnd : (attrs.map Prod.fst).Nodup)
    (hmem : (k, AttrValue.ref n) ∈ attrs) :
    ((alookup defs n = none ∨ (∃ sb, alookup defs n = some (.styleDef sb))) →
        alookup ((ThemeLoader.expandAttrs defs ⟨some attrs, sf⟩).attr.getD []) k
          = none) ∧
    (∀ v, alookup defs n = some (.value v) →
        alookup ((ThemeLoader.expandAttrs defs ⟨some attrs, sf⟩).attr.getD []) k
          = some (.lit v)) := by
  have hlook : alookup attrs k = some (.ref n) :=
    alookup_of_mem_nodup attrs k _ hmem hnd
  have hf : ∀ (p : String × AttrValue) (q : String × AttrValue),
      ThemeLoader.expandAttr defs p = some q → q.1 = p.1 := by
    intro p q hpq
    cases p with
    | mk a b =>
      cases b with
      | lit v =>
        simp only [ThemeLoader.expandAttr] at hpq
        injection hpq with hh
        rw [← hh]
      | ref n' =>
        simp only [ThemeLoader.expandAttr] at hpq
        cases hl : alookup defs n' with
        | none => rw [hl] at hpq; cases hpq
        | some def' =>
          rw [hl] at hpq
          cases def' with
          | value v => injection hpq with hh; rw [← hh]
          | styleDef sb => cases hpq
  have hrw : alookup ((ThemeLoader.expandAttrs defs ⟨some attrs, sf⟩).attr.getD []) k
      = (alookup attrs k).bind (fun v =>
          (ThemeLoader.expandAttr defs (k, v)).map Prod.snd) := by
    simp only [ThemeLoader.expandAttrs, Option.getD_some]
    exact alookup_filterMap _ hf attrs k hnd
  rw [hrw, hlook]
  constructor
  · rintro (hmiss | ⟨sb, hsb⟩)
    · simp [ThemeLoader.expandAttr, hmiss]
    · simp [ThemeLoader.expandAttr, hsb]
  · intro v hv
    simp [ThemeLoader.expandAttr, hv]

/-- Witness for C8: a style with three `$ref` attributes — one to a value
definition (replaced), one missing (deleted), one to a style definition
(deleted). -/
theorem C8_witness :
    alookup ((ThemeLoader.expandAttrs
        [("vd", .value "#f00"), ("sd", .styleDef ⟨none, []⟩)]
        ⟨some [("a", .ref "vd"), ("b", .ref "nope"), ("c", .ref "sd")], []⟩).attr.getD [])
      "b" = none :=
  (C8_attr_ref_resolution
      [("vd", .value "#f00"), ("sd", .styleDef ⟨none, []⟩)] []
      [("a", .ref "vd"), ("b", .ref "nope"), ("c", .ref "sd")]
      "b" "nope" (by decide) (by decide)).1 (Or.inl (by decide))

/-! ## TileGeometryCreator: technique enabling (initDecodedTile) -/

/-- A technique as far as kind-based filtering is concerned: its (already
normalized) `kind` set and the memoized `enabled` flag.  The source
normalizes a string or array `kind` into a `GeometryKindSet` first
(ThemeLoader.ts lines 384-390); the model starts from the normalized set,
represented as a list of kind names. -/
structure KindTechnique where
  kind : Option (List String)
  enabled : Option Bool
deriving DecidableEq

/-- Model of `GeometryKindSet.hasOrIntersects` — external
(`harp-datasource-protocol`), modelled from the spec: a filtering set
matches a technique's kind set when the two share at least one kind. -/
def hasOrIntersects (s : List String) (kind : List String) : Bool :=
  kind.any (fun k => s.contains k)

/-- The guard `set !== undefined && set.hasOrIntersects(kind)` for an optional set. -/
def optMatches (s : Option (List String)) (kind : List String) : Bool :=
  match s with
  | some s' => hasOrIntersects s' kind
  | none => false

/-- The enabled computation of `TileGeometryCreator.initDecodedTile`
(ThemeLoader.ts lines 392-404): a technique without kind information (or
with an empty kind set) is always enabled; otherwise it is enabled unless
matched by `disabledKinds` — except that a match by `enabledKinds` wins. -/
def computeEnabled (enabledKinds disabledKinds : Option (List String))
    (kind : Option (List String)) : Bool :=
  match kind with
  | none => true
  | some ks =>
    if ks.isEmpty then true
    else !(optMatches disabledKinds ks) || optMatches enabledKinds ks

/-- Model of `TileGeometryCreator.initDecodedTile` (ThemeLoader.ts lines 372-405):
techniques whose `enabled` flag is already set are skipped; the rest get
their flag memoized. -/
def initDecodedTile (enabledKinds disabledKinds : Option (List String))
    (techniques : List KindTechnique) : List KindTechnique :=
  techniques.map (fun t =>
    if t.enabled.isSome then t
    else { t with enabled := some (computeEnabled enabledKinds disabledKinds t.kind) })

/-! ## TileGeometryCreator: group compression (createObjects) -/

/-- A geometry group: a (technique index, start, count) range of the index
buffer, plus the `created` flag consulted for multi-phase builds. -/
structure GeomGroup where
  technique : Nat
  start : Nat
  count : Nat
  created : Bool
deriving DecidableEq

/-- The inner compression loop of `TileGeometryCreator.createObjects`
(ThemeLoader.ts lines 600-611): absorb following groups while they
reference the same technique and are contiguous (`start + count` equals
the next group's `start`); stop at the first group that differs in
technique or is non-contiguous.  Returns the accumulated count and the
remaining groups. -/
def absorbGroups (tech start count : Nat) :
    List GeomGroup → Nat × List GeomGroup
  | [] => (count, [])
  | g :: rest =>
    if g.technique = tech then
      if start + count = g.start then absorbGroups tech start (count + g.count) rest
      else (count, g :: rest)
    else (count, g :: rest)

theorem absorbGroups_length_le (tech start count : Nat) (l : List GeomGroup) :
    (absorbGroups tech start count l).2.length ≤ l.length := by
  induction l generalizing count with
  | nil => simp [absorbGroups]
  | cons g rest ih =>
    simp only [absorbGroups]
    by_cases h1 : g.technique = tech
    · by_cases h2 : start + count = g.start
      · simp only [h1, h2, if_true]
        exact Nat.le_succ_of_le (ih (count + g.count))
      · simp [h1, h2]
    · simp [h1]

/-- The draw ranges emitted by the outer group loop of
`TileGeometryCreator.createObjects` (ThemeLoader.ts lines 580-611), as
(technique index, start, count) triples: groups already created or whose
technique is disabled (or rejected by the optional technique filter,
folded into `enabled`) are skipped; each remaining group starts a range
that absorbs consecutive contiguous same-technique groups. -/
def createDrawRanges (enabled : Nat → Bool) :
    List GeomGroup → List (Nat × Nat × Nat)
  | [] => []
  | g :: rest =>
    if g.created || !(enabled g.technique) then createDrawRanges enabled rest
    else
      let res := absorbGroups g.technique g.start g.count rest
      (g.technique, g.start, res.1) :: createDrawRanges enabled res.2
termination_by l => l.length
decreasing_by
  · simp
  · have := absorbGroups_length_le g.technique g.start g.count rest
    simp only [List.length_cons]
    omega

/-! ## Claim C7 -/

/-- C7: `initDecodedTile` leaves already-tagged techniques alone and tags
each remaining technique with `computeEnabled`; a technique with no kind
(or an empty kind set) is always enabled, and otherwise it is enabled iff
it is not matched by `disabledKinds` or is matched by `enabledKinds` — in
particular an explicit enable overrides a disable when a kind is in both
sets. -/
theorem C7_technique_enabling (eks dks : Option (List String))
    (ts : List KindTechnique) (i : Nat) (t : KindTechnique)
    (hti : ts[i]? = some t) (hun : t.enabled = none) :
    (initDecodedTile eks dks ts)[i]? =
      some { t with enabled := some (computeEnabled eks dks t.kind) } ∧
    ((t.kind = none ∨ t.kind = some []) → computeEnabled eks dks t.kind = true) ∧
    (∀ ks, t.kind = some ks → ks ≠ [] →
      (computeEnabled eks dks t.kind = true ↔
        (optMatches dks ks = false ∨ optMatches eks ks = true))) := by
  refine ⟨?_, ?_, ?_⟩
  · simp [initDecodedTile, List.getElem?_map, hti, hun]
  · rintro (hk | hk) <;> simp [computeEnabled, hk]
  · intro ks hk hne
    simp only [computeEnabled, hk]
    rw [if_neg (by simpa [List.isEmpty_iff] using hne)]
    cases hm : optMatches dks ks <;> simp [hm]

/-- Witness for C7: a kind listed in both `enabledKinds` and
`disabledKinds` still yields an enabled technique. -/
theorem C7_witness :
    (initDecodedTile (some ["road"]) (some ["road", "building"])
        [⟨some ["road"], none⟩])[0]? =
      some ⟨some ["road"], some true⟩ := by
  have h := C7_technique_enabling (some ["road"]) (some ["road", "building"])
    [⟨some ["road"], none⟩] 0 ⟨some ["road"], none⟩ (by decide) rfl
  rw [h.1]
  decide

/-! ## Claim C3 -/

/-- C3: in `createObjects`, an uncreated, enabled group absorbs an
immediately following group exactly when that group references the same
technique index and is contiguous in the index buffer, producing one draw
range with the combined count; a non-contiguous or different-technique
successor yields two separate draw ranges. -/
theorem C3_group_compression (enabled : Nat → Bool) (g1 g2 : GeomGroup)
    (h1c : g1.created = false) (h1e : enabled g1.technique = true)
    (h2c : g2.created = false) (h2e : enabled g2.technique = true) :
    ((g2.technique = g1.technique ∧ g1.start + g1.count = g2.start) →
      createDrawRanges enabled [g1, g2] =
        [(g1.technique, g1.start, g1.count + g2.count)]) ∧
    ((g2.technique ≠ g1.technique ∨ g1.start + g1.count ≠ g2.start) →
      createDrawRanges enabled [g1, g2] =
        [(g1.technique, g1.start, g1.count),
         (g2.technique, g2.start, g2.count)]) := by
  constructor
  · rintro ⟨ht, hs⟩
    rw [createDrawRanges]
    simp only [h1c, h1e, absorbGroups, ht, hs, if_true, Bool.not_true,
      Bool.false_or, Bool.or_false]
    rw [createDrawRanges]
    simp [absorbGroups, createDrawRanges]
  · intro hne
    rw [createDrawRanges]
    simp only [h1c, h1e, Bool.not_true, Bool.false_or, Bool.or_false]
    have habs : absorbGroups g1.technique g1.start g1.count [g2]
        = (g1.count, [g2]) := by
      rcases hne with ht | hs
      · simp [absorbGroups, ht]
      · simp only [absorbGroups]
        by_cases h : g2.technique = g1.technique
        · simp [h, hs]
        · simp [h]
    simp only [habs]
    rw [createDrawRanges]
    simp only [h2c, h2e, absorbGroups, Bool.not_true, Bool.false_or,
      Bool.or_false]
    rw [createDrawRanges]
    simp [absorbGroups, createDrawRanges]

/-- Witness for C3: the spec's example — contiguous same-technique ranges
starting at 0 with count 10 and at 10 with count 5 merge into one range of
count 15, while starts 0 and 11 stay separate. -/
theorem C3_witness :
    createDrawRanges (fun _ => true)
        [⟨7, 0, 10, false⟩, ⟨7, 10, 5, false⟩] = [(7, 0, 15)] ∧
    createDrawRanges (fun _ => true)
        [⟨7, 0, 10, false⟩, ⟨7, 11, 5, false⟩] = [(7, 0, 10), (7, 11, 5)] :=
  ⟨(C3_group_compression (fun _ => true) ⟨7, 0, 10, false⟩ ⟨7, 10, 5, false⟩
      rfl rfl rfl rfl).1 ⟨rfl, rfl⟩,
   (C3_group_compression (fun _ => true) ⟨7, 0, 10, false⟩ ⟨7, 11, 5, false⟩
      rfl rfl rfl rfl).2 (Or.inr (by decide))⟩

/-! ## TileGeometryCreator: text path splitting (prepareTextPaths) -/

/-- Model of `TextPathGeometry`: the flat `[x, y, z, x, y, z, ...]` coordinate array
plus the fields that a split copies verbatim (ThemeLoader.ts lines
1131-1152). -/
structure TextPathGeometry where
  path : List ℚ
  text : String
  pathLengthSqr : ℚ
  technique : Nat
  featureId : Option Nat
deriving DecidableEq

/-- Exact test for `Math.abs(Math.atan2(cross, dot)) > Math.PI / 8`
(ThemeLoader.ts lines 1116-1121).  With `θ = atan2(cross, dot)`, the
negation `|θ| ≤ π/8` holds iff the vector `(dot, cross)` lies in the
closed cone of half-angle `π/8` around the positive x-axis, i.e.
`dot ≥ 0` and `|cross| ≤ dot * tan (π/8)`; using `tan (π/8) = √2 - 1`
(so `tan (π/8) ^ 2 = 3 - 2 * √2`) and squaring twice (both comparisons are
between nonnegative quantities at that point), the test becomes the
rational inequalities below, with `L = 3 * dot ^ 2 - cross ^ 2`.  The
source normalizes each tangent before the comparison; normalization scales
`dot` and `cross` by the same positive factor and leaves the test
unchanged, so the model uses the unnormalized segment differences. -/
def sharpTurn (dot cross : ℚ) : Bool :=
  dot < 0 || 3 * dot ^ 2 - cross ^ 2 < 0 ||
    8 * dot ^ 4 > (3 * dot ^ 2 - cross ^ 2) ^ 2

/-- The corner scan of `TileGeometryCreator.prepareTextPaths`
(ThemeLoader.ts lines 1108-1127) from flat offset `i`, carrying the
previous segment's tangent `(px, py)`: walk the flat array three
coordinates at a time, compute each segment's tangent, and report the
first offset `i > 0` where the turning angle against the previous tangent
exceeds `π/8`.  The loop guard `i < path.length - 3` corresponds to the
pattern below for well-formed paths (length a multiple of three). -/
def findSplitGo (i : Nat) (px py : ℚ) : List ℚ → Option Nat
  | x0 :: y0 :: _z0 :: x1 :: y1 :: rest =>
    let tx := x1 - x0
    let ty := y1 - y0
    if i != 0 && sharpTurn (tx * px + ty * py) (px * ty - tx * py) then some i
    else findSplitGo (i + 3) tx ty (x1 :: y1 :: rest)
  | _ => none

/-- The `splitIndex` computed for one path by `prepareTextPaths`: the scan
starts at offset 0 with a zero previous tangent (never consulted there,
because of the `i > 0` guard). -/
def findSplitIndex (p : List ℚ) : Option Nat := findSplitGo 0 0 0 p

theorem findSplitGo_some_bounds (i : Nat) (px py : ℚ) (l : List ℚ) (si : Nat)
    (h : findSplitGo i px py l = some si) :
    0 < si ∧ i ≤ si ∧ si + 5 ≤ i + l.length := by
  induction i, px, py, l using findSplitGo.induct generalizing si with
  | case1 i px py x0 y0 z0 x1 y1 rest tx ty hcond =>
    rw [findSplitGo] at h
    simp only [hcond, if_true] at h
    injection h with h
    subst h
    simp only [Bool.and_eq_true, bne_iff_ne, ne_eq] at hcond
    simp only [List.length_cons]
    omega
  | case2 i px py x0 y0 z0 x1 y1 rest tx ty hcond ih =>
    rw [findSplitGo] at h
    rw [if_neg hcond] at h
    obtain ⟨h1, h2, h3⟩ := ih si h
    simp only [List.length_cons] at h3 ⊢
    omega
  | case3 l i px py hshape =>
    rw [findSplitGo] at h
    · cases h
    · exact hshape

/-- One split step of `prepareTextPaths` (ThemeLoader.ts lines 1093-1158)
for a single path: find the first sharp corner; when found, emit the head
sub-path `path.slice(0, splitIndex + 3)` and re-process the tail sub-path
`path.slice(splitIndex)` (the source pushes it onto its LIFO work list, so
it is popped next); a path with no sharp corner is emitted unchanged.  All
other fields — `pathLengthSqr` included — are copied to both sub-paths
verbatim. -/
def prepareTextPath (tp : TextPathGeometry) : List TextPathGeometry :=
  match h : findSplitIndex tp.path with
  | none => [tp]
  | some si =>
    { tp with path := tp.path.take (si + 3) } ::
      prepareTextPath { tp with path := tp.path.drop si }
termination_by tp.path.length
decreasing_by
  have hb := findSplitGo_some_bounds 0 0 0 tp.path si h
  simp only [List.length_drop]
  omega

theorem prepareTextPath_of_none (tp : TextPathGeometry)
    (h : findSplitIndex tp.path = none) : prepareTextPath tp = [tp] := by
  rw [prepareTextPath]
  split
  · rfl
  · rename_i si hsi
    rw [h] at hsi
    cases hsi

theorem prepareTextPath_of_some (tp : TextPathGeometry) (si : Nat)
    (h : findSplitIndex tp.path = some si) :
    prepareTextPath tp =
      { tp with path := tp.path.take (si + 3) } ::
        prepareTextPath { tp with path := tp.path.drop si } := by
  rw [prepareTextPath]
  split
  · rename_i hsi
    rw [h] at hsi
    cases hsi
  · rename_i si' hsi
    rw [h] at hsi
    injection hsi with hsi
    subst hsi
    rfl

/-! ### Vertex-level reading of the corner scan

The flat `[x, y, z, ...]` array is the flattening of a vertex list; the
scan's tangents are differences of consecutive vertices (only x and y are
consulted, matching the source's 2D tangents). -/

def flatten : List (ℚ × ℚ × ℚ) → List ℚ
  | [] => []
  | v :: vs => v.1 :: v.2.1 :: v.2.2 :: flatten vs

@[simp] theorem flatten_nil : flatten [] = [] := rfl

@[simp] theorem flatten_cons (v : ℚ × ℚ × ℚ) (vs : List (ℚ × ℚ × ℚ)) :
    flatten (v :: vs) = v.1 :: v.2.1 :: v.2.2 :: flatten vs := rfl

@[simp] theorem length_flatten (vs : List (ℚ × ℚ × ℚ)) :
    (flatten vs).length = 3 * vs.length := by
  induction vs with
  | nil => rfl
  | cons v vs ih => simp [flatten, ih]; ring

/-- The turning-angle test at middle vertex `v`, with previous segment
`u → v` and current segment `v → w`. -/
def sharpPair (u v w : ℚ × ℚ × ℚ) : Bool :=
  sharpTurn ((w.1 - v.1) * (v.1 - u.1) + (w.2.1 - v.2.1) * (v.2.1 - u.2.1))
    ((v.1 - u.1) * (w.2.1 - v.2.1) - (w.1 - v.1) * (v.2.1 - u.2.1))

def vget (vs : List (ℚ × ℚ × ℚ)) (j : Nat) : ℚ × ℚ × ℚ := vs.getD j (0, 0, 0)

/-- Whether the turning angle at interior vertex `j` exceeds `π/8`. -/
def sharpVertexAt (vs : List (ℚ × ℚ × ℚ)) (j : Nat) : Bool :=
  sharpPair (vget vs (j - 1)) (vget vs j) (vget vs (j + 1))

/-- First sharp middle vertex of `u :: v :: rest`, as an offset from `v`. -/
def scanSharp2 (u v : ℚ × ℚ × ℚ) : List (ℚ × ℚ × ℚ) → Option Nat
  | [] => none
  | w :: rest =>
    if sharpPair u v w then some 0 else (scanSharp2 v w rest).map (· + 1)

theorem findSplitGo_cons5 (i : Nat) (px py x0 y0 z0 x1 y1 : ℚ) (rest : List ℚ) :
    findSplitGo i px py (x0 :: y0 :: z0 :: x1 :: y1 :: rest) =
      if i != 0 && sharpTurn ((x1 - x0) * px + (y1 - y0) * py)
          (px * (y1 - y0) - (x1 - x0) * py)
      then some i
      else findSplitGo (i + 3) (x1 - x0) (y1 - y0) (x1 :: y1 :: rest) := by
  rw [findSplitGo]

theorem findSplitGo_flatten (rest : List (ℚ × ℚ × ℚ)) :
    ∀ (u v : ℚ × ℚ × ℚ) (m : Nat), 1 ≤ m →
      findSplitGo (3 * m) (v.1 - u.1) (v.2.1 - u.2.1) (flatten (v :: rest))
        = (scanSharp2 u v rest).map (fun k => 3 * (m + k)) := by
  induction rest with
  | nil =>
    intro u v m _
    simp [flatten, findSplitGo, scanSharp2]
  | cons w rest ih =>
    intro u v m hm
    simp only [flatten_cons]
    rw [findSplitGo_cons5]
    have hm0 : (3 * m != 0) = true := by
      simp only [bne_iff_ne, ne_eq]
      omega
    rw [hm0, Bool.true_and]
    by_cases hs : sharpPair u v w = true
    · have hs' : sharpTurn
          ((w.1 - v.1) * (v.1 - u.1) + (w.2.1 - v.2.1) * (v.2.1 - u.2.1))
          ((v.1 - u.1) * (w.2.1 - v.2.1) - (w.1 - v.1) * (v.2.1 - u.2.1))
            = true := hs
      rw [hs']
      simp [scanSharp2, hs]
    · have hsf : sharpPair u v w = false := by
        cases hq : sharpPair u v w
        · rfl
        · exact absurd hq hs
      have hsf' : sharpTurn
          ((w.1 - v.1) * (v.1 - u.1) + (w.2.1 - v.2.1) * (v.2.1 - u.2.1))
          ((v.1 - u.1) * (w.2.1 - v.2.1) - (w.1 - v.1) * (v.2.1 - u.2.1))
            = false := hsf
      rw [hsf']
      simp only [Bool.false_eq_true, if_false]
      have hrec := ih v w (m + 1) (by omega)
      rw [flatten_cons] at hrec
      have h33 : 3 * m + 3 = 3 * (m + 1) := by ring
      rw [h33, hrec]
      simp only [scanSharp2, hsf, Bool.false_eq_true, if_false, Option.map_map]
      cases hX : scanSharp2 v w rest with
      | none => rfl
      | some k =>
        simp only [Option.map_some', Function.comp_apply, Option.some.injEq]
        omega

theorem sharpVertexAt_cons_succ (v0 : ℚ × ℚ × ℚ) (tl : List (ℚ × ℚ × ℚ))
    (j : Nat) (hj : 1 ≤ j) :
    sharpVertexAt (v0 :: tl) (j + 1) = sharpVertexAt tl j := by
  cases j with
  | zero => omega
  | succ j' =>
    simp [sharpVertexAt, vget, List.getD_cons_succ, Nat.add_sub_cancel]

theorem scanSharp2_eq_none (rest : List (ℚ × ℚ × ℚ)) :
    ∀ (u v : ℚ × ℚ × ℚ),
      (∀ j, 1 ≤ j → j + 1 < (u :: v :: rest).length →
        sharpVertexAt (u :: v :: rest) j = false) →
      scanSharp2 u v rest = none := by
  induction rest with
  | nil => intro u v _; rfl
  | cons w rest ih =>
    intro u v hns
    have h1 : sharpVertexAt (u :: v :: w :: rest) 1 = false :=
      hns 1 le_rfl (by simp)
    have h1' : sharpPair u v w = false := by
      simpa [sharpVertexAt, vget] using h1
    simp only [scanSharp2, h1', Bool.false_eq_true, if_false]
    rw [ih v w ?_]
    · rfl
    · intro j hj hlen
      have hh := hns (j + 1) (by omega) (by simp only [List.length_cons] at hlen ⊢; omega)
      rwa [sharpVertexAt_cons_succ u _ j hj] at hh

theorem scanSharp2_eq_some (rest : List (ℚ × ℚ × ℚ)) :
    ∀ (u v : ℚ × ℚ × ℚ) (j : Nat), 1 ≤ j → j + 1 < (u :: v :: rest).length →
      sharpVertexAt (u :: v :: rest) j = true →
      (∀ j', 1 ≤ j' → j' < j → sharpVertexAt (u :: v :: rest) j' = false) →
      scanSharp2 u v rest = some (j - 1) := by
  induction rest with
  | nil =>
    intro u v j hj hlen _ _
    simp at hlen
    omega
  | cons w rest ih =>
    intro u v j hj hlen hsharp hmin
    by_cases hj1 : j = 1
    · subst hj1
      have h1' : sharpPair u v w = true := by
        simpa [sharpVertexAt, vget] using hsharp
      simp [scanSharp2, h1']
    · have hj2 : 2 ≤ j := by omega
      have h1 : sharpVertexAt (u :: v :: w :: rest) 1 = false :=
        hmin 1 le_rfl (by omega)
      have h1' : sharpPair u v w = false := by
        simpa [sharpVertexAt, vget] using h1
      simp only [scanSharp2, h1', Bool.false_eq_true, if_false]
      have hsharp' : sharpVertexAt (v :: w :: rest) (j - 1) = true := by
        have hh := hsharp
        have hjj : j - 1 + 1 = j := by omega
        rw [← hjj, sharpVertexAt_cons_succ u _ (j - 1) (by omega)] at hh
        exact hh
      have hmin' : ∀ j', 1 ≤ j' → j' < j - 1 →
          sharpVertexAt (v :: w :: rest) j' = false := by
        intro j' hj' hlt
        have hh := hmin (j' + 1) (by omega) (by omega)
        rwa [sharpVertexAt_cons_succ u _ j' hj'] at hh
      have hrec := ih v w (j - 1) (by omega)
        (by simp only [List.length_cons] at hlen ⊢; omega) hsharp' hmin'
      rw [hrec]
      simp only [Option.map_some', Option.some.injEq]
      omega

/-- The corner scan finds nothing on a path none of whose interior turning
angles exceeds `π/8`. -/
theorem findSplitIndex_flatten_none (vs : List (ℚ × ℚ × ℚ))
    (hns : ∀ j, 1 ≤ j → j + 1 < vs.length → sharpVertexAt vs j = false) :
    findSplitIndex (flatten vs) = none := by
  match vs with
  | [] => rfl
  | [v] => rfl
  | u :: v :: rest =>
    show findSplitGo 0 0 0
      (u.1 :: u.2.1 :: u.2.2 :: v.1 :: v.2.1 :: v.2.2 :: flatten rest) = none
    rw [findSplitGo_cons5]
    simp only [bne_self_eq_false, Bool.false_and, Bool.false_eq_true, if_false]
    have hgo := findSplitGo_flatten rest u v 1 le_rfl
    rw [flatten_cons] at hgo
    rw [scanSharp2_eq_none rest u v hns] at hgo
    simpa using hgo

/-- The corner scan reports `3 * j` on a path whose first sharp interior
vertex is `j`. -/
theorem findSplitIndex_flatten_some (vs : List (ℚ × ℚ × ℚ)) (j : Nat)
    (hj : 1 ≤ j) (hlen : j + 1 < vs.length)
    (hsharp : sharpVertexAt vs j = true)
    (hmin : ∀ j', 1 ≤ j' → j' < j → sharpVertexAt vs j' = false) :
    findSplitIndex (flatten vs) = some (3 * j) := by
  match vs with
  | [] => simp at hlen
  | [v] => simp at hlen
  | u :: v :: rest =>
    show findSplitGo 0 0 0
      (u.1 :: u.2.1 :: u.2.2 :: v.1 :: v.2.1 :: v.2.2 :: flatten rest)
        = some (3 * j)
    rw [findSplitGo_cons5]
    simp only [bne_self_eq_false, Bool.false_and, Bool.false_eq_true, if_false]
    have hgo := findSplitGo_flatten rest u v 1 le_rfl
    rw [flatten_cons] at hgo
    rw [scanSharp2_eq_some rest u v j hj hlen hsharp hmin] at hgo
    simp only [Option.map_some'] at hgo
    have hjj : 3 * (1 + (j - 1)) = 3 * j := by omega
    rw [hjj] at hgo
    simpa using hgo

/-! ### Reconstruction of a split path

The two sub-paths of a split share the split vertex: the head sub-path ends
with it and the tail sub-path starts with it.  Dropping the first vertex
(three flat coordinates) of every fragment after the first therefore
reassembles the original flat array. -/

def dropJoin : List TextPathGeometry → List ℚ
  | [] => []
  | tp :: rest => tp.path.drop 3 ++ dropJoin rest

def reconstructPaths : List TextPathGeometry → List ℚ
  | [] => []
  | tp :: rest => tp.path ++ dropJoin rest

theorem dropJoin_prepareTextPath :
    ∀ (n : Nat) (tp : TextPathGeometry), tp.path.length ≤ n →
      dropJoin (prepareTextPath tp) = tp.path.drop 3 := by
  intro n
  induction n with
  | zero =>
    intro tp hlen
    have hp : tp.path = [] := List.length_eq_zero.mp (Nat.le_zero.mp hlen)
    have hs : findSplitIndex tp.path = none := by rw [hp]; rfl
    rw [prepareTextPath_of_none tp hs]
    simp [dropJoin]
  | succ n ih =>
    intro tp hlen
    cases hs : findSplitIndex tp.path with
    | none =>
      rw [prepareTextPath_of_none tp hs]
      simp [dropJoin]
    | some si =>
      have hb := findSplitGo_some_bounds 0 0 0 tp.path si hs
      rw [prepareTextPath_of_some tp si hs]
      simp only [dropJoin]
      rw [ih { tp with path := tp.path.drop si }
        (by simp only [List.length_drop]; omega)]
      simp only
      have e2 : (tp.path.drop si).drop 3 = (tp.path.drop 3).drop si := by
        rw [List.drop_drop, List.drop_drop, Nat.add_comm]
      have e1 : (tp.path.take (si + 3)).drop 3 = (tp.path.drop 3).take si := by
        rw [List.drop_take]
        simp
      rw [e1, e2, List.take_append_drop]

theorem reconstructPaths_prepareTextPath (tp : TextPathGeometry) :
    reconstructPaths (prepareTextPath tp) = tp.path := by
  cases hs : findSplitIndex tp.path with
  | none =>
    rw [prepareTextPath_of_none tp hs]
    simp [reconstructPaths, dropJoin]
  | some si =>
    rw [prepareTextPath_of_some tp si hs]
    simp only [reconstructPaths]
    rw [dropJoin_prepareTextPath
      ({ tp with path := tp.path.drop si } : TextPathGeometry).path.length _
      le_rfl]
    simp only
    rw [List.drop_drop]
    exact List.take_append_drop _ _

theorem prepareTextPath_fields_aux :
    ∀ (n : Nat) (tp : TextPathGeometry), tp.path.length ≤ n →
      ∀ frag ∈ prepareTextPath tp,
        frag.pathLengthSqr = tp.pathLengthSqr ∧ frag.text = tp.text ∧
        frag.technique = tp.technique ∧ frag.featureId = tp.featureId := by
  intro n
  induction n with
  | zero =>
    intro tp hlen frag hf
    have hp : tp.path = [] := List.length_eq_zero.mp (Nat.le_zero.mp hlen)
    have hs : findSplitIndex tp.path = none := by rw [hp]; rfl
    rw [prepareTextPath_of_none tp hs, List.mem_singleton] at hf
    subst hf
    exact ⟨rfl, rfl, rfl, rfl⟩
  | succ n ih =>
    intro tp hlen frag hf
    cases hs : findSplitIndex tp.path with
    | none =>
      rw [prepareTextPath_of_none tp hs, List.mem_singleton] at hf
      subst hf
      exact ⟨rfl, rfl, rfl, rfl⟩
    | some si =>
      have hb := findSplitGo_some_bounds 0 0 0 tp.path si hs
      rw [prepareTextPath_of_some tp si hs] at hf
      rcases List.mem_cons.mp hf with rfl | hf2
      · exact ⟨rfl, rfl, rfl, rfl⟩
      · exact ih { tp with path := tp.path.drop si }
          (by simp only [List.length_drop]; omega) frag hf2

/-! ## TileGeometryCreator: label priorities (createTextElements) -/

/-- The constant `SORT_WEIGHT_PATH_LENGTH` (ThemeLoader.ts line 355). -/
def SORT_WEIGHT_PATH_LENGTH : ℚ := 1 / 10

/-- The priority computed for a path label by
`TileGeometryCreator.createTextElements` (ThemeLoader.ts lines 1217-1223):
the technique's base priority plus
`SORT_WEIGHT_PATH_LENGTH * pathLengthSqr / maxPathLengthSqr` when the
maximum is positive. -/
def computePriority (basePriority pathLengthSqr maxPathLengthSqr : ℚ) : ℚ :=
  basePriority +
    (if 0 < maxPathLengthSqr then
      SORT_WEIGHT_PATH_LENGTH * pathLengthSqr / maxPathLengthSqr
    else 0)

/-- The running maximum of `m_maxPathLengthSqr` over the tile's prepared
text paths (ThemeLoader.ts lines 1186-1197; the list stands for the paths
whose technique is a text technique, the others are skipped). -/
def maxPathLengthSqr (paths : List TextPathGeometry) : ℚ :=
  paths.foldl
    (fun m tp => if m < tp.pathLengthSqr then tp.pathLengthSqr else m) 0

theorem le_foldl_maxPathLengthSqr (paths : List TextPathGeometry) :
    ∀ acc : ℚ, acc ≤ paths.foldl
      (fun m tp => if m < tp.pathLengthSqr then tp.pathLengthSqr else m) acc := by
  induction paths with
  | nil => intro acc; simp
  | cons g rest ih =>
    intro acc
    refine le_trans ?_ (ih _)
    by_cases h : acc < g.pathLengthSqr
    · simp only [List.foldl_cons, if_pos h]
      exact le_of_lt h
    · simp only [if_neg h]
      exact le_refl acc

theorem mem_le_maxPathLengthSqr (paths : List TextPathGeometry)
    (tp : TextPathGeometry) (hmem : tp ∈ paths) :
    tp.pathLengthSqr ≤ maxPathLengthSqr paths := by
  unfold maxPathLengthSqr
  generalize (0 : ℚ) = acc
  induction paths generalizing acc with
  | nil => cases hmem
  | cons g rest ih =>
    rcases List.mem_cons.mp hmem with rfl | hm
    · simp only [List.foldl_cons]
      refine le_trans ?_ (le_foldl_maxPathLengthSqr rest _)
      by_cases h : acc < tp.pathLengthSqr
      · rw [if_pos h]
      · rw [if_neg h]
        exact le_of_not_lt h
    · simp only [List.foldl_cons]
      exact ih hm _

/-! ## Claim C2 -/

/-- Fixture: a three-vertex path with a sharp (about 169 degrees) turn at
its middle vertex, and the two sub-paths the splitter produces for it. -/
def splitFixturePath : TextPathGeometry :=
  ⟨[0, 0, 0, 1, 0, 0, 0, 1, 0], "Main St", 25, 0, none⟩

def splitFixtureFirst : TextPathGeometry :=
  ⟨[0, 0, 0, 1, 0, 0], "Main St", 25, 0, none⟩

def splitFixtureSecond : TextPathGeometry :=
  ⟨[1, 0, 0, 0, 1, 0], "Main St", 25, 0, none⟩

theorem prepareTextPath_fixture :
    prepareTextPath splitFixturePath = [splitFixtureFirst, splitFixtureSecond] := by
  have h1 : findSplitIndex splitFixturePath.path = some 3 := by
    norm_num [findSplitIndex, findSplitGo, sharpTurn, splitFixturePath]
  rw [prepareTextPath_of_some _ _ h1]
  have h2 : findSplitIndex
      ({ splitFixturePath with path := splitFixturePath.path.drop 3 }
        : TextPathGeometry).path = none := by
    norm_num [findSplitIndex, findSplitGo, sharpTurn, splitFixturePath]
  rw [prepareTextPath_of_none _ h2]
  norm_num [splitFixturePath, splitFixtureFirst, splitFixtureSecond]

/-- C2, as stated, is false in one point: the two sub-paths of a split
share the split vertex, so the plain concatenation of their vertex
sequences repeats that vertex and does not equal the original path. -/
theorem C2_counterexample :
    prepareTextPath splitFixturePath = [splitFixtureFirst, splitFixtureSecond] ∧
    splitFixtureFirst.path ++ splitFixtureSecond.path ≠ splitFixturePath.path :=
  ⟨prepareTextPath_fixture,
    by norm_num [splitFixturePath, splitFixtureFirst, splitFixtureSecond]⟩

/-- C2 (amended): a path none of whose interior turning angles exceeds
`π/8` is emitted unchanged as a single path; a path whose first sharp
interior vertex is `j` is split at that vertex into the head sub-path
(vertices `0..j`) and the tail sub-path (vertices `j..end`), the tail
being re-processed; the sub-paths overlap in the shared split vertex, and
concatenating the head with the tail minus that one shared vertex — and,
for repeated splits, the whole fragment list with each later fragment's
first vertex dropped — reconstructs the original path exactly. -/
theorem C2_path_splitting (tp : TextPathGeometry) (vs : List (ℚ × ℚ × ℚ))
    (hvs : tp.path = flatten vs) :
    reconstructPaths (prepareTextPath tp) = tp.path ∧
    ((∀ j, 1 ≤ j → j + 1 < vs.length → sharpVertexAt vs j = false) →
      prepareTextPath tp = [tp]) ∧
    (∀ j, 1 ≤ j → j + 1 < vs.length → sharpVertexAt vs j = true →
      (∀ j', 1 ≤ j' → j' < j → sharpVertexAt vs j' = false) →
      prepareTextPath tp =
        { tp with path := tp.path.take (3 * j + 3) } ::
          prepareTextPath { tp with path := tp.path.drop (3 * j) } ∧
      tp.path.take (3 * j + 3) ++ (tp.path.drop (3 * j)).drop 3 = tp.path) := by
  refine ⟨reconstructPaths_prepareTextPath tp, ?_, ?_⟩
  · intro hns
    refine prepareTextPath_of_none tp ?_
    rw [hvs]
    exact findSplitIndex_flatten_none vs hns
  · intro j hj hlen hsharp hmin
    have hs : findSplitIndex tp.path = some (3 * j) := by
      rw [hvs]
      exact findSplitIndex_flatten_some vs j hj hlen hsharp hmin
    refine ⟨prepareTextPath_of_some tp _ hs, ?_⟩
    rw [List.drop_drop]
    exact List.take_append_drop _ _

/-- Witness for C2: the fixture path is split at its sharp middle vertex,
and head plus overlap-stripped tail reconstruct the original. -/
theorem C2_witness :
    prepareTextPath splitFixturePath =
      { splitFixturePath with
          path := splitFixturePath.path.take (3 * 1 + 3) } ::
        prepareTextPath { splitFixturePath with
          path := splitFixturePath.path.drop (3 * 1) } ∧
    splitFixturePath.path.take (3 * 1 + 3) ++
        (splitFixturePath.path.drop (3 * 1)).drop 3
      = splitFixturePath.path :=
  (C2_path_splitting splitFixturePath
      [(0, 0, 0), (1, 0, 0), (0, 1, 0)] (by simp [splitFixturePath])).2.2 1
    le_rfl (by norm_num)
    (by norm_num [sharpVertexAt, vget, sharpPair, sharpTurn])
    (fun j' h1 h2 => absurd h2 (by omega))

/-! ## Claim C10 -/

/-- C10: every fragment produced by (repeatedly) splitting a text path
keeps the original path's `pathLengthSqr` unchanged — the source copies the
field verbatim rather than recomputing it — and consequently the
placement-priority bonus computed in `createTextElements` for a fragment is
that of the original full path. -/
theorem C10_split_keeps_pathLengthSqr (tp frag : TextPathGeometry)
    (hf : frag ∈ prepareTextPath tp) :
    frag.pathLengthSqr = tp.pathLengthSqr ∧
    ∀ base maxSqr : ℚ, computePriority base frag.pathLengthSqr maxSqr
      = computePriority base tp.pathLengthSqr maxSqr := by
  obtain ⟨h1, _, _, _⟩ :=
    prepareTextPath_fields_aux tp.path.length tp le_rfl frag hf
  exact ⟨h1, fun base maxSqr => by rw [h1]⟩

/-- Witness for C10: the head fragment of the split fixture keeps the full
path's squared length (25), not its own. -/
theorem C10_witness :
    splitFixtureFirst.pathLengthSqr = splitFixturePath.pathLengthSqr ∧
    computePriority 2 splitFixtureFirst.pathLengthSqr 100
      = computePriority 2 splitFixturePath.pathLengthSqr 100 := by
  have hmem : splitFixtureFirst ∈ prepareTextPath splitFixturePath := by
    rw [prepareTextPath_fixture]
    exact List.mem_cons_self _ _
  have h := C10_split_keeps_pathLengthSqr splitFixturePath splitFixtureFirst hmem
  exact ⟨h.1, h.2 2 100⟩

/-! ## Claim C6 -/

/-- C6: among the tile's text paths, with identical base priority, the
strictly longer path gets the strictly higher computed priority, and the
path-length bonus equals
`SORT_WEIGHT_PATH_LENGTH * pathLengthSqr / maxPathLengthSqr`, hence is
bounded by the factor `SORT_WEIGHT_PATH_LENGTH = 0.1`. -/
theorem C6_priority_ordering (paths : List TextPathGeometry)
    (tp1 tp2 : TextPathGeometry) (h1 : tp1 ∈ paths) (h2 : tp2 ∈ paths)
    (base : ℚ) (hnn : 0 ≤ tp2.pathLengthSqr)
    (hlt : tp2.pathLengthSqr < tp1.pathLengthSqr) :
    computePriority base tp2.pathLengthSqr (maxPathLengthSqr paths)
      < computePriority base tp1.pathLengthSqr (maxPathLengthSqr paths) ∧
    computePriority base tp1.pathLengthSqr (maxPathLengthSqr paths) - base
      = SORT_WEIGHT_PATH_LENGTH * tp1.pathLengthSqr / maxPathLengthSqr paths ∧
    computePriority base tp1.pathLengthSqr (maxPathLengthSqr paths) - base
      ≤ SORT_WEIGHT_PATH_LENGTH := by
  have hM1 : tp1.pathLengthSqr ≤ maxPathLengthSqr paths :=
    mem_le_maxPathLengthSqr paths tp1 h1
  have hMpos : 0 < maxPathLengthSqr paths :=
    lt_of_lt_of_le (lt_of_le_of_lt hnn hlt) hM1
  have hw : (0 : ℚ) < SORT_WEIGHT_PATH_LENGTH := by
    norm_num [SORT_WEIGHT_PATH_LENGTH]
  refine ⟨?_, ?_, ?_⟩
  · simp only [computePriority, if_pos hMpos]
    have hx : SORT_WEIGHT_PATH_LENGTH * tp2.pathLengthSqr
        < SORT_WEIGHT_PATH_LENGTH * tp1.pathLengthSqr :=
      mul_lt_mul_of_pos_left hlt hw
    have hinv : 0 < (maxPathLengthSqr paths)⁻¹ := inv_pos.mpr hMpos
    have hdiv := mul_lt_mul_of_pos_right hx hinv
    rw [div_eq_mul_inv, div_eq_mul_inv]
    linarith
  · simp only [computePriority, if_pos hMpos]
    ring
  · simp only [computePriority, if_pos hMpos]
    have hstep : SORT_WEIGHT_PATH_LENGTH * tp1.pathLengthSqr
        ≤ SORT_WEIGHT_PATH_LENGTH * maxPathLengthSqr paths :=
      mul_le_mul_of_nonneg_left hM1 (le_of_lt hw)
    rw [add_sub_cancel_left, div_le_iff hMpos]
    exact hstep

/-- Witness for C6: two paths of squared lengths 100 and 25 in one tile,
base priority 2: the longer one wins and its bonus is exactly 0.1. -/
theorem C6_witness :
    computePriority 2 (25 : ℚ)
        (maxPathLengthSqr [⟨[], "a", 100, 0, none⟩, ⟨[], "b", 25, 0, none⟩])
      < computePriority 2 (100 : ℚ)
        (maxPathLengthSqr [⟨[], "a", 100, 0, none⟩, ⟨[], "b", 25, 0, none⟩]) := by
  have h := C6_priority_ordering
    [⟨[], "a", 100, 0, none⟩, ⟨[], "b", 25, 0, none⟩]
    ⟨[], "a", 100, 0, none⟩ ⟨[], "b", 25, 0, none⟩
    (List.mem_cons_self _ _)
    (List.mem_cons_of_mem _ (List.mem_cons_self _ _)) 2
    (by norm_num) (by norm_num)
  exact h.1

/-! ## TileGeometryCreator: text render style cache (getRenderStyle) -/

/-- The fields of a text technique consulted by `getRenderStyle`
(ThemeLoader.ts lines 1345-1440), plus the technique identity entering the
style-cache key.  Zoom-dependent properties are abstracted as declared
constants, so the `getPropertyValue(..., Math.floor(zoomLevel))`
evaluations read them directly. -/
structure TextTechnique where
  key : Nat
  fontName : Option String
  size : Option ℚ
  backgroundSize : Option ℚ
  color : Option String
  backgroundColor : Option String
  opacity : Option ℚ
deriving DecidableEq

/-- The key of `computeStyleCacheId` — external (`text/TextStyleCache`),
modelled from the spec (section 4.4): data source name, technique
identity, and quantized (floored) zoom level. -/
structure StyleCacheId where
  dataSource : String
  techniqueKey : Nat
  zoom : Int
deriving DecidableEq

def computeStyleCacheId (dsName : String) (t : TextTechnique)
    (zoomLevel : ℚ) : StyleCacheId :=
  ⟨dsName, t.key, ⌊zoomLevel⌋⟩

/-- The resolved render style: technique values override defaults (font
size 32 as in the source's fallback render params). -/
structure TextRenderStyle where
  fontName : Option String
  fontSize : ℚ
  color : Option String
  opacity : Option ℚ
deriving DecidableEq

def buildRenderStyle (t : TextTechnique) : TextRenderStyle :=
  { fontName := t.fontName
    fontSize := t.size.getD 32
    color := t.color
    opacity := t.opacity }

/-- Model of `TileGeometryCreator.getRenderStyle` (ThemeLoader.ts lines 1345-1440):
look the cache id up in the map view's `textRenderStyleCache`; on a hit
return the cached instance unchanged; on a miss construct the style,
store it, and return it.  The returned boolean records whether a new style
object was constructed. -/
def getRenderStyle (cache : List (StyleCacheId × TextRenderStyle))
    (dsName : String) (t : TextTechnique) (zoomLevel : ℚ) :
    TextRenderStyle × List (StyleCacheId × TextRenderStyle) × Bool :=
  let cacheId := computeStyleCacheId dsName t zoomLevel
  match alookup cache cacheId with
  | some s => (s, cache, false)
  | none =>
    let s := buildRenderStyle t
    (s, (cacheId, s) :: cache, true)

/-! ## Claim C5 -/

/-- C5: two `getRenderStyle` calls with the same data source name, the
same technique, and the same floor of the zoom level hit the same cache
entry: the second call returns the first call's style instance, constructs
nothing, and leaves the cache untouched. -/
theorem C5_render_style_cache_hit
    (cache : List (StyleCacheId × TextRenderStyle)) (dsName : String)
    (t : TextTechnique) (z1 z2 : ℚ) (hz : ⌊z1⌋ = ⌊z2⌋) :
    (getRenderStyle (getRenderStyle cache dsName t z1).2.1 dsName t z2).1
      = (getRenderStyle cache dsName t z1).1 ∧
    (getRenderStyle (getRenderStyle cache dsName t z1).2.1 dsName t z2).2.2
      = false ∧
    (getRenderStyle (getRenderStyle cache dsName t z1).2.1 dsName t z2).2.1
      = (getRenderStyle cache dsName t z1).2.1 := by
  have hid : computeStyleCacheId dsName t z2 = computeStyleCacheId dsName t z1 := by
    simp [computeStyleCacheId, hz]
  cases hl : alookup cache (computeStyleCacheId dsName t z1) with
  | some s => simp [getRenderStyle, hid, hl]
  | none => simp [getRenderStyle, hid, hl, alookup]

def c5Technique : TextTechnique :=
  ⟨7, none, some 16, none, some "#f00", none, none⟩

/-- Witness for C5: zoom levels 14.5 and 14.6 share floor 14; the second
lookup is a cache hit that constructs nothing. -/
theorem C5_witness :
    (getRenderStyle (getRenderStyle [] "omv" c5Technique (29/2)).2.1
        "omv" c5Technique (73/5)).2.2 = false ∧
    (getRenderStyle (getRenderStyle [] "omv" c5Technique (29/2)).2.1
        "omv" c5Technique (73/5)).1
      = (getRenderStyle [] "omv" c5Technique (29/2)).1 := by
  have hz : ⌊(29/2 : ℚ)⌋ = ⌊(73/5 : ℚ)⌋ := by
    rw [show ⌊(29/2 : ℚ)⌋ = 14 by rw [Int.floor_eq_iff] <;> norm_num]
    rw [show ⌊(73/5 : ℚ)⌋ = 14 by rw [Int.floor_eq_iff] <;> norm_num]
  have h := C5_render_style_cache_hit [] "omv" c5Technique (29/2) (73/5) hz
  exact ⟨h.2.1, h.1⟩

end HarpGL
